import Mathlib

/-!
Verification of the TaCLe tabular-constraint learner.

This file gives a shallow embedding of the parts of the code base that the
checked claims are about:

* the geometry model `Range` / `Block` of `Code/src/indexing.py`
  (here `RangeI` and `Blk`),
* the cell-type lattice `Typing` of `Code/src/indexing.py`,
* the facade `learn_from_cells` / `filter_constraints` of `tacle/__init__.py`,
* the assignment generator `Source._complete` of `Code/src/core/assignment.py`,
* the validator infrastructure of `tacle/engine/internal.py`
  (`MaxRange`, `_generate_test_vectors`, `rank_data`, `equal`,
  `precision_and_scale`, the `Rank`, `Equal`, `PercentualDiff` and
  `FuzzyLookup` predicates).

Python machine floats are embedded as `ℚ` (the validator data in the claims is
exact decimal data), Python ints as `ℤ`, and code that can raise an exception
returns an `Option`/`Except` value whose `none`/`error` case marks the raise.
-/

namespace TacleV

/-! ## Geometry: `Range` (indexing.py, class Range)

A `Range` holds integer `(column, row, width, height)` fields.  All derived
quantities (`x0`, `x1`, `cells`, ...) are the direct translations of the
Python properties; widths and heights are signed because `from_coordinates`
subtracts coordinates without clamping. -/

structure RangeI where
  column : ℤ
  row : ℤ
  width : ℤ
  height : ℤ
deriving DecidableEq, Repr

def RangeI.x0 (r : RangeI) : ℤ := r.column

def RangeI.y0 (r : RangeI) : ℤ := r.row

def RangeI.x1 (r : RangeI) : ℤ := r.column + r.width

def RangeI.y1 (r : RangeI) : ℤ := r.row + r.height

def RangeI.rows (r : RangeI) : ℤ := r.height

def RangeI.columns (r : RangeI) : ℤ := r.width

def RangeI.cells (r : RangeI) : ℤ := r.rows * r.columns

/-- Embeds `Range.from_coordinates(x0, y0, x1, y1)`. -/
def RangeI.from_coordinates (x0 y0 x1 y1 : ℤ) : RangeI :=
  ⟨x0, y0, x1 - x0, y1 - y0⟩

/-- Embeds `Range.intersect(other)`. -/
def RangeI.intersect (r o : RangeI) : RangeI :=
  RangeI.from_coordinates (max r.x0 o.x0) (max r.y0 o.y0) (min r.x1 o.x1) (min r.y1 o.y1)

/-- Embeds `Range.overlaps_with(other)` (`self.intersect(other).cells > 0`). -/
def RangeI.overlaps_with (r o : RangeI) : Bool :=
  (r.intersect o).cells > 0

/-- Embeds `Range.contains_cell(cell)` for a cell `(x, y)`. -/
def RangeI.contains_cell (r : RangeI) (x y : ℤ) : Bool :=
  r.x0 ≤ x && x < r.x1 && r.y0 ≤ y && y < r.y1

/-- Embeds `Range.sub_range(vector_index, vector_count, orientation)`'s
bounds-check outcome: the Python function returns (not raises) a `ValueError`
object when the x-extent is exceeded, and a `Range` otherwise. -/
inductive SubRangeResult where
  | valueError (msg : String)
  | range (r : RangeI)
deriving DecidableEq, Repr

/-- Orientation (indexing.py, class Orientation).  The Python values are the
strings "vertical" and "horizontal"; where the code compares orientations with
`<` (tuple comparison in `Block.__lt__`) the string order has
"horizontal" < "vertical". -/
inductive Orient where
  | vertical
  | horizontal
deriving DecidableEq, Repr

/-- Embeds `Range.sub_range`.  The bounds check compares against the x-extent
(`self.x0 + vector_index + vector_count > self.x1`) for both orientations. -/
def RangeI.sub_range (r : RangeI) (vector_index vector_count : ℤ) (o : Orient) :
    SubRangeResult :=
  if r.x0 + vector_index + vector_count > r.x1 then
    .valueError "Sub range exceeds range"
  else if o = Orient.vertical then
    .range ⟨r.x0 + vector_index, r.y0, vector_count, r.height⟩
  else
    .range ⟨r.x0, r.y0 + vector_index, r.width, vector_count⟩

/-- The proposition that some sheet cell lies in both ranges (the claims'
reading of "the ranges intersect / share at least one cell"). -/
def SharesCell (r o : RangeI) : Prop :=
  ∃ x y : ℤ, r.contains_cell x y = true ∧ o.contains_cell x y = true

/-! ## Blocks (indexing.py, class Block)

A block is a table together with a table-relative range, an orientation and
data.  The table is represented by its name (`Table.__eq__` and
`Table.__lt__` compare by name only).  `data` holds the values of the block's
single vector when one is needed (`get_vector(1)` of a width-one block); the
geometric operations ignore it, exactly as the Python ones do. -/

structure Blk where
  table : String
  orientation : Orient
  relative_range : RangeI
  data : List ℚ
deriving DecidableEq, Repr

/-- Embeds `Block.overlaps_with(block)`:
same table and the relative ranges overlap. -/
def Blk.overlaps_with (b o : Blk) : Bool :=
  b.table == o.table && b.relative_range.overlaps_with o.relative_range

/-- Two blocks share a sheet cell: they lie in the same table and their
relative ranges share a cell (tables occupy disjoint sheet rectangles). -/
def SharesCellB (b o : Blk) : Prop :=
  b.table = o.table ∧ SharesCell b.relative_range o.relative_range

/-! ## Sub-blocks (indexing.py, `Block.sub_block`)

`Block.sub_block` calls `Range.sub_range` for the bounds check.  Because
`sub_range` returns a `ValueError` object instead of raising it, `sub_block`
never sees an exception from the bounds check; the failure surfaces only as a
non-`Range` value.  We model the bounds-check step of `sub_block`. -/

/-- The range computed by `Block.sub_block(vector_index, vector_count)` before
the new `Block` is constructed. -/
def Blk.sub_block_range (b : Blk) (vector_index vector_count : ℤ) : SubRangeResult :=
  b.relative_range.sub_range vector_index vector_count b.orientation

/-! ## The validator front end: `_generate_test_vectors`
(tacle/engine/internal.py, `InternalSolvingStrategy._generate_test_vectors`)

For each assignment it takes the cartesian product of the vectors of the
blocks bound to the template's key varbls, drops every tuple in which some
pair of vectors overlaps, applies the test, and yields the surviving tuples.
An assignment is embedded as the list of the per-key vector lists (the Python
code iterates `assignment[k.name]`, which yields the single-vector sub-blocks
of the bound block); the yielded `dict(zip(names, vectors))` is embedded as
the tuple of vectors, the distinct key names being the fixed positions. -/

/-- Cartesian product of a list of lists, in `itertools.product` order. -/
def productLists : List (List α) → List (List α)
  | [] => [[]]
  | l :: ls => l.flatMap (fun x => (productLists ls).map (x :: ·))

/-- Embeds `any(g1.overlaps_with(g2) for g1, g2 in itertools.combinations(vectors, 2))`. -/
def anyPairOverlaps : List Blk → Bool
  | [] => false
  | x :: xs => xs.any (fun y => x.overlaps_with y) || anyPairOverlaps xs

/-- Embeds `_generate_test_vectors(assignments, keys, test_groups)`. -/
def generateTestVectors (assignments : List (List (List Blk)))
    (test : List Blk → Bool) : List (List Blk) :=
  assignments.flatMap
    (fun a => (productLists a).filter (fun vs => !anyPairOverlaps vs && test vs))

/-! ## Cell-type lattice (indexing.py, class Typing)

`lowest_common_ancestor` builds the two root-ward paths and then walks both
from the back with a Python negative index `last` starting at `-1`.  A Python
list raises `IndexError` when a negative index reaches below `-len`, so the
walk is embedded with an explicit negative-indexing function returning
`none` on an out-of-range access, and the whole procedure returns
`Except String (Option CellType)`: `error` marks a raised `IndexError`, `ok
none` is the Python return value `None`.  The claim's domain is the six cell
types, so the source's `None`-argument branches (lines 33-36) fall outside it
and are not modelled. -/

inductive CellType where
  | int
  | float
  | string
  | currency
  | percentage
  | numeric
deriving DecidableEq, Repr, Fintype

/-- Embeds `Typing.hierarchy()`. -/
def hierarchy : CellType → Option CellType
  | .int => some .numeric
  | .float => some .numeric
  | .currency => some .float
  | .percentage => some .float
  | _ => none

/-- Python list indexing `l[i]` with support for negative indices;
`none` is a raised `IndexError`. -/
def pyIdx (l : List α) (i : ℤ) : Option α :=
  let j := if i < 0 then (l.length : ℤ) + i else i
  if j < 0 then none else l.get? j.toNat

/-- The `while cell_type in hierarchy` path-building loop.  The hierarchy
chains have length at most 2, so fuel 4 never runs out. -/
def pathLoop : ℕ → CellType → List CellType → List CellType
  | 0, _, acc => acc
  | n + 1, t, acc =>
    match hierarchy t with
    | none => acc
    | some p => pathLoop n p (acc ++ [p])

def pathUp (t : CellType) : List CellType := pathLoop 4 t [t]

/-- The `while path1[last - 1] == path2[last - 1]: last -= 1` loop followed by
`return path1[last]`.  Fuel `p1.length + p2.length + 2` is enough: `last`
starts at `-1` and each step decrements it, so after at most
`min(len p1, len p2)` steps an index is out of range. -/
def lcaWalk : ℕ → List CellType → List CellType → ℤ → Except String (Option CellType)
  | 0, _, _, _ => .error "fuel"
  | n + 1, p1, p2, last =>
    match pyIdx p1 (last - 1), pyIdx p2 (last - 1) with
    | some a, some b =>
      if a = b then lcaWalk n p1 p2 (last - 1)
      else
        match pyIdx p1 last with
        | some c => .ok (some c)
        | none => .error "IndexError"
    | _, _ => .error "IndexError"

/-- Embeds `Typing.lowest_common_ancestor(cell_type1, cell_type2)`. -/
def lowest_common_ancestor (t1 t2 : CellType) : Except String (Option CellType) :=
  if t1 = t2 then .ok (some t1)
  else
    let p1 := pathUp t1
    let p2 := pathUp t2
    if pyIdx p1 (-1) ≠ pyIdx p2 (-1) then .ok none
    else lcaWalk (p1.length + p2.length + 2) p1 p2 (-1)

instance : DecidableEq (Except String (Option CellType)) := fun a b =>
  match a, b with
  | .ok x, .ok y => decidable_of_iff (x = y) (by simp)
  | .error x, .error y => decidable_of_iff (x = y) (by simp)
  | .ok _, .error _ => isFalse (by simp)
  | .error _, .ok _ => isFalse (by simp)

/-! ## Facade (tacle/__init__.py)

`filter_constraints(constraints, *args)` keeps the constraints matched by at
least one pattern (a glob over the template name, a template class, or the
formula / non-formula sentinels).  `learn_from_cells(data, filters)` learns
the constraints and, when `filters` is not `None`, executes
`constraints = filter_constraints(filters)` — the filters list is passed as
the `constraints` positional argument and no patterns at all are passed.

The learning pipeline itself (`get_type_data`, `detect_table_ranges`,
`learn_constraints`) is not part of the sources; the constraints learned from
the cells therefore enter the embedding as an abstract list `learned`.
A learned constraint is embedded by the three attributes the filter consults:
template name, `is_formula()`, and the template's class (`isinstance` is
modelled as class-name equality).  Python lists are heterogeneous, so the
result element type is the sum of constraints and patterns. -/

/-- Glob matching as used by `fnmatch.fnmatch` restricted to the `*` and `?`
wildcards (no `[...]` sets occur in template-name patterns).  Every recursive
call shrinks `p.length + s.length`, so the fuel of `globMatch` below is never
exhausted. -/
def globMatchF : ℕ → List Char → List Char → Bool
  | 0, _, _ => false
  | n + 1, p, s =>
    match p, s with
    | [], [] => true
    | [], _ :: _ => false
    | '*' :: ps, [] => globMatchF n ps []
    | '*' :: ps, c :: cs => globMatchF n ps (c :: cs) || globMatchF n ('*' :: ps) cs
    | '?' :: ps, _ :: cs => globMatchF n ps cs
    | _ :: _, [] => false
    | ch :: ps, c :: cs => (ch == c) && globMatchF n ps cs

def globMatch (p s : List Char) : Bool := globMatchF (p.length + s.length + 1) p s

/-- A learned constraint, reduced to the attributes `filter_constraints`
consults. -/
structure ConstraintI where
  templateName : String
  formula : Bool
  className : String
deriving DecidableEq, Repr

/-- A filter pattern: a glob / sentinel string, or a template class. -/
inductive Pattern where
  | str (s : String)
  | cls (c : String)
deriving DecidableEq, Repr

/-- Embeds the inner `check(_c)` of `filter_constraints`, generic in the
element type because the buggy call site applies it to pattern elements.
`isF` embeds `_c.is_formula()` and `matches` embeds the per-pattern test;
neither is consulted when `args` is empty, exactly as in Python (where an
element of the wrong type would raise `AttributeError` if they were). -/
def checkPattern (isF : α → Bool) (mtch : α → Pattern → Bool)
    (args : List Pattern) (c : α) : Bool :=
  let all_formulas := args.contains (Pattern.str "<formula>") || args.contains (Pattern.str "<f>")
  let all_constraints :=
    args.contains (Pattern.str "<constraint>") || args.contains (Pattern.str "<c>")
  if all_formulas && isF c then true
  else if all_constraints && !isF c then true
  else args.any (mtch c)

/-- Embeds `filter_constraints(constraints, *args)`. -/
def filter_constraints (isF : α → Bool) (mtch : α → Pattern → Bool)
    (constraints : List α) (args : List Pattern) : List α :=
  constraints.filter (checkPattern isF mtch args)

/-- The per-pattern test for a real constraint: glob over the template name
for a string pattern, `isinstance` (class-name equality) for a class
pattern. -/
def constraintMatches (c : ConstraintI) (p : Pattern) : Bool :=
  match p with
  | .str s => globMatch s.toList c.templateName.toList
  | .cls k => c.className == k

/-- Embeds `learn_from_cells(data, filters)` with the learned constraints
abstracted as `learned`.  In the `some` branch the code executes
`filter_constraints(filters)`: the filters list is the `constraints` argument
and `args` is empty, so the stand-in attribute functions are never consulted. -/
def learn_from_cells (learned : List ConstraintI) (filters : Option (List Pattern)) :
    List (ConstraintI ⊕ Pattern) :=
  match filters with
  | none => learned.map Sum.inl
  | some fs =>
    (filter_constraints (fun _ => false) (fun _ _ => false) fs []).map Sum.inr

/-! ## MaxRange (tacle/engine/internal.py, class MaxRange)

`MaxRange(test).find(start, end, size)` runs the `_find` while-loop with
`limit = start + size - 1` and `last = end`.  The loop is embedded with fuel
(`none` marking exhaustion) and the result is the list of `(start, end)`
arguments the stored predicate is invoked with, in invocation order; the
termination claim is discharged by exhibiting sufficient fuel. -/

/-- Embeds `MaxRange._find`: one fuel unit per iteration of `while True`. -/
def maxRangeLoop (test : ℤ → ℤ → Bool) :
    ℕ → ℤ → ℤ → ℤ → ℤ → ℤ → Option (List (ℤ × ℤ))
  | 0, _, _, _, _, _ => none
  | f + 1, s, e, lim, lst, size =>
    if lst - s < size then some []
    else if e - s < size ∨ e < lim then
      maxRangeLoop test f (s + 1) lst (max (s + 1 + size) lim) lst size
    else if test s e then
      (maxRangeLoop test f (s + 1) e lim lst size).map ((s, e) :: ·)
    else
      (maxRangeLoop test f s (e - 1) lim lst size).map ((s, e) :: ·)

/-- Embeds `MaxRange.find(start, end, size)` (default `limit` and `last`). -/
def maxRangeFind (test : ℤ → ℤ → Bool) (f : ℕ) (s e size : ℤ) :
    Option (List (ℤ × ℤ)) :=
  maxRangeLoop test f s e (s + size - 1) e size

/-! ## Assignment generation (Code/src/core/assignment.py, `Source._complete`)

`_complete` walks the seed assignments; for each it builds the per-variable
domains (`[assignment[v]]` for a seeded variable, all groups otherwise,
filtered by the variable's type set) and enumerates the CSP solutions.  When a
domain is empty, `try_assignment` returns `(variable.name in assignment, [])`:
`resume` is `True` for a seeded variable (only this seed is skipped) and
`False` for an unseeded one, in which case `_complete` returns `[]`,
discarding everything.  A group is embedded by an identity and its `dtype`;
the CSP solver (`constraint.Problem.getSolutions`) is embedded as the
cartesian product of the domains filtered by the filter predicates, each
filter receiving the whole candidate assignment. -/

inductive GType where
  | int
  | float
  | string
deriving DecidableEq, Repr

structure CGroup where
  gid : ℕ
  dtype : GType
deriving DecidableEq, Repr

structure Vbl where
  name : String
  types : List GType
deriving DecidableEq, Repr

/-- An assignment: an association list from variable names to groups. -/
abbrev CAsg := List (String × CGroup)

def lookupA (a : CAsg) (n : String) : Option CGroup :=
  match a with
  | [] => none
  | (k, v) :: rest => if k == n then some v else lookupA rest n

/-- Cartesian product of the variable domains, each solution in variable
order. -/
def productAsg : List (String × List CGroup) → List CAsg
  | [] => [[]]
  | (n, dom) :: rest => dom.flatMap (fun g => (productAsg rest).map ((n, g) :: ·))

/-- Embeds `problem.getSolutions()` for the problem built by
`try_assignment`: every combination of domain values that satisfies all
filters. -/
def getSolutionsCSP (domains : List (String × List CGroup))
    (filters : List (CAsg → Bool)) : List CAsg :=
  (productAsg domains).filter (fun asg => filters.all (fun f => f asg))

/-- The variable loop of `try_assignment`: builds the domains in variable
order and returns `(variable.name in assignment, [])` at the first empty
domain. -/
def tryAssignmentGo (assignment : CAsg) (groups : List CGroup)
    (filters : List (CAsg → Bool)) :
    List Vbl → List (String × List CGroup) → Bool × List CAsg
  | [], domains => (true, getSolutionsCSP domains filters)
  | v :: vs, domains =>
    let candidates :=
      match lookupA assignment v.name with
      | some g => [g]
      | none => groups
    let domain := candidates.filter (fun g => v.types.contains g.dtype)
    if domain.isEmpty then ((lookupA assignment v.name).isSome, [])
    else tryAssignmentGo assignment groups filters vs (domains ++ [(v.name, domain)])

/-- Embeds `try_assignment()` inside `Source._complete`. -/
def try_assignment (varbls : List Vbl) (assignment : CAsg)
    (groups : List CGroup) (filters : List (CAsg → Bool)) : Bool × List CAsg :=
  tryAssignmentGo assignment groups filters varbls []

/-- The seed loop of `Source._complete`: accumulate solutions; when
`resume` is false return `[]`, discarding the accumulator as well. -/
def completeAux (varbls : List Vbl) (groups : List CGroup)
    (filters : List (CAsg → Bool)) : List CAsg → List CAsg → List CAsg
  | acc, [] => acc
  | acc, a :: rest =>
    if (try_assignment varbls a groups filters).1 then
      completeAux varbls groups filters
        (acc ++ (try_assignment varbls a groups filters).2) rest
    else []

/-- Embeds `Source._complete(assignments, groups, filters)`. -/
def source_complete (varbls : List Vbl) (assignments : List CAsg)
    (groups : List CGroup) (filters : List (CAsg → Bool)) : List CAsg :=
  completeAux varbls groups filters [] assignments

/-! ## Numeric helpers of the validators (tacle/engine/internal.py)

`equal(x, y)` compares two floats with absolute tolerance `10**-10` (the
`None`, string and NaN branches have no counterpart for exact rational data).
`precision_and_scale(x)` recovers the number of integer digits and fractional
digits of a float; `numpy.round` rounds half to even.  All are embedded over
`ℚ`. -/

/-- Embeds `equal(x, y)` for numeric data: `abs(x - y) < pow(10, -10)`. -/
def qeq (x y : ℚ) : Bool :=
  |x - y| < 1 / 10 ^ 10

/-- The `while frac_digits % 10 == 0: frac_digits /= 10` loop of
`precision_and_scale`.  Each division strictly shrinks a positive number, so
fuel `n` is enough for input `n` (the input is at least 10 at the call site,
never 0, so the loop terminates in Python too). -/
def stripZerosF : ℕ → ℕ → ℕ
  | 0, n => n
  | f + 1, n => if n ≠ 0 ∧ n % 10 = 0 then stripZerosF f (n / 10) else n

def stripZeros (n : ℕ) : ℕ := stripZerosF n n

/-- Embeds `precision_and_scale(x)`: `(precision, scale)`.
`int(log10(k))` for a positive integer `k` is the number of its decimal
digits minus one, i.e. `Nat.log 10 k`; `int(...)` of a non-negative float is
its floor. -/
def precision_and_scale (x : ℚ) : ℕ × ℕ :=
  let max_digits : ℕ := 14
  let int_part : ℕ := (Int.floor |x|).toNat
  let magnitude : ℕ := if int_part = 0 then 1 else Nat.log 10 int_part + 1
  if magnitude ≥ max_digits then (magnitude, 0)
  else
    let frac_part : ℚ := |x| - int_part
    let multiplier : ℕ := 10 ^ (max_digits - magnitude)
    let frac_digits : ℕ := multiplier + (Int.floor ((multiplier : ℚ) * frac_part + 1 / 2)).toNat
    let scale := Nat.log 10 (stripZeros frac_digits)
    (magnitude + scale, scale)

/-- Round to the nearest integer, ties to even (the rounding of
`numpy.round`). -/
def roundHalfEven (q : ℚ) : ℤ :=
  let f := Int.floor q
  let r := q - f
  if r < 1 / 2 then f
  else if 1 / 2 < r then f + 1
  else if f % 2 = 0 then f else f + 1

/-- Embeds `numpy.round(x, n)` for `n ≥ 0` decimals. -/
def npRound (x : ℚ) (n : ℕ) : ℚ :=
  (roundHalfEven (x * 10 ^ n) : ℚ) / 10 ^ n

/-! ## PercentualDiff (tacle/engine/internal.py, `percent_diff.is_diff`)

The loop over `range(len(r))` is embedded structurally; indexing `o1`/`o2`
past their length is a raised `IndexError` (`none`).  `storedEq` stands for
the final `found_equal(o1_v, o2_v, solutions)` store query. -/

def percentDiffGo (storedEq : Bool) : List ℚ → List ℚ → List ℚ → Option Bool
  | [], _, _ => some (!storedEq)
  | ri :: rs, o1s, o2s =>
    match o1s, o2s with
    | o1i :: o1t, o2i :: o2t =>
      if o2i = 0 then some false
      else
        let res := npRound ((o1i - o2i) / o2i) (precision_and_scale ri).2
        if o2i = 0 ∨ qeq ri res = false then some false
        else percentDiffGo storedEq rs o1t o2t
    | _, _ => none

/-- Embeds the `is_diff(r_v, o1_v, o2_v)` predicate of `percent_diff`. -/
def is_percent_diff (storedEq : Bool) (r o1 o2 : List ℚ) : Option Bool :=
  percentDiffGo storedEq r o1 o2

/-! ## FuzzyLookup (tacle/engine/internal.py, `fuzzy_lookup.test_equal`)

`find_fuzzy(element, collection)` returns `None` when the element is below
the first entry, otherwise the largest index whose entry does not exceed the
element (for an ordered collection); accessing `collection[0]` of an empty
collection would raise (`none` in the outer `Option`).  The three `eq*` flags
stand for the `found_equal` store queries. -/

def ffLoop (e : ℚ) : List ℚ → ℕ → ℕ → ℕ
  | [], _, len => len - 1
  | x :: xs, i, len => if e < x then i - 1 else ffLoop e xs (i + 1) len

/-- Embeds `find_fuzzy(element, collection)`; outer `none` is a raised
`IndexError`, inner `none` is the Python return value `None`. -/
def find_fuzzy (element : ℚ) (collection : List ℚ) : Option (Option ℕ) :=
  match collection with
  | [] => none
  | c0 :: rest =>
    if element < c0 then some none
    else some (some (ffLoop element rest 1 collection.length))

def fuzzyTestGo (eqOkFk eqOvFv : Bool) (ok ov : List ℚ) :
    List ℚ → List ℚ → Bool → Option Bool
  | [], _, exct => some (!exct && !eqOkFk && !eqOvFv)
  | fki :: fkt, fvs, exct =>
    match find_fuzzy fki ok with
    | none => none
    | some none => some false
    | some (some idx) =>
      let exct2 := if ok.getD idx 0 ≠ fki then false else exct
      match fvs with
      | [] => none
      | fvi :: fvt =>
        match ov.get? idx with
        | none => none
        | some ovi =>
          if qeq ovi fvi = false then some false
          else fuzzyTestGo eqOkFk eqOvFv ok ov fkt fvt exct2

/-- Embeds the `test_equal(ok_v, ov_v, fk_v, fv_v)` predicate of
`fuzzy_lookup` on the underlying data. -/
def fuzzy_test_equal (eqOkFk eqOvFv eqOkOv : Bool) (ok ov fk fv : List ℚ) :
    Option Bool :=
  if eqOkFk && eqOvFv && eqOkOv then some false
  else fuzzyTestGo eqOkFk eqOvFv ok ov fk fv true

/-! ## The Equal validator (tacle/engine/internal.py, `equality`)

The strategy keeps a map `equal_map` from vectors to a canonical equal
vector.  Its stateful `test` runs over the candidate pairs in the order of
`_generate_test_vectors` (product order, overlapping pairs skipped before the
test is called).  Vector groups are embedded as `Blk`; the dictionary uses
the block's `__eq__`/`__hash__` (table, orientation, relative range — the
data of a block is determined by those three, so ignoring `data` in the key
is faithful), and `<` is `Block.__lt__`: the lexicographic order on
`(table, orientation, vector_index, vector_count, vector_length)` where the
orientation strings compare "horizontal" < "vertical". -/

def RangeI.vector_count (r : RangeI) (o : Orient) : ℤ :=
  if o = Orient.vertical then r.columns else r.rows

def RangeI.vector_length (r : RangeI) (o : Orient) : ℤ :=
  if o = Orient.vertical then r.rows else r.columns

def RangeI.vector_index (r : RangeI) (o : Orient) : ℤ :=
  if o = Orient.vertical then r.x0 else r.y0

def Blk.vector_count (b : Blk) : ℤ := b.relative_range.vector_count b.orientation

def Blk.vector_length (b : Blk) : ℤ := b.relative_range.vector_length b.orientation

def Blk.vector_index (b : Blk) : ℤ := b.relative_range.vector_index b.orientation

/-- The order of the Python orientation strings: "horizontal" < "vertical". -/
def Orient.ltO (a b : Orient) : Bool :=
  match a, b with
  | .horizontal, .vertical => true
  | _, _ => false

/-- Embeds `Block.__lt__`: Python tuple comparison of
`(table, orientation, vector_index(), vector_count(), vector_length())`. -/
def Blk.lt (a b : Blk) : Bool :=
  if a.table < b.table then true
  else if b.table < a.table then false
  else if Orient.ltO a.orientation b.orientation then true
  else if Orient.ltO b.orientation a.orientation then false
  else if a.vector_index < b.vector_index then true
  else if b.vector_index < a.vector_index then false
  else if a.vector_count < b.vector_count then true
  else if b.vector_count < a.vector_count then false
  else a.vector_length < b.vector_length

/-- Embeds `ordered(x, y)`: false iff `y < x`. -/
def orderedB (x y : Blk) : Bool := !(Blk.lt y x)

/-- Embeds `Block.__eq__` (used for dictionary keys): table, orientation and
relative range. -/
def beqBlk (a b : Blk) : Bool :=
  a.table == b.table && a.orientation == b.orientation &&
    a.relative_range == b.relative_range

/-- The `equal_map` dictionary. -/
abbrev EqMap := List (Blk × Blk)

def lookupEq : EqMap → Blk → Option Blk
  | [], _ => none
  | (k, v) :: rest, b => if beqBlk k b then some v else lookupEq rest b

/-- Dictionary assignment `equal_map[k] = v` (update or append). -/
def updateEq : EqMap → Blk → Blk → EqMap
  | [], k, v => [(k, v)]
  | (k0, v0) :: rest, k, v =>
    if beqBlk k0 k then (k0, v) :: rest else (k0, v0) :: updateEq rest k v

/-- Elementwise `equal` over the vector data.  The Python loop runs over
`range(len(x))`; the `SameLength` filter of the Equal template makes both
vectors the same length, where the zip is the same loop. -/
def dataEqB (x y : List ℚ) : Bool := (x.zip y).all (fun p => qeq p.1 p.2)

/-- Embeds the stateful `test(x_v, y_v)` of `equality`: result and updated
map. -/
def equalTest (m : EqMap) (x y : Blk) : Bool × EqMap :=
  if orderedB x y = false then (false, m)
  else
    let shortcut :=
      match lookupEq m x, lookupEq m y with
      | some a, some b => beqBlk a b
      | _, _ => false
    if shortcut then (true, m)
    else if dataEqB x.data y.data = false then (false, m)
    else
      match lookupEq m y with
      | some found =>
        let minimal := if Blk.lt x found then x else found
        let maximal := if Blk.lt x found then found else x
        (true, updateEq (updateEq m y minimal) maximal minimal)
      | none => (true, updateEq m y x)

/-- The generator loop of `_generate_test_vectors` specialised to the Equal
template: overlapping pairs are skipped without calling the test; the test
threads the map. -/
def runPairs : EqMap → List (Blk × Blk) → List (Blk × Blk)
  | _, [] => []
  | m, (x, y) :: rest =>
    if Blk.overlaps_with x y then runPairs m rest
    else
      let r := equalTest m x y
      if r.1 then (x, y) :: runPairs r.2 rest else runPairs r.2 rest

/-- `itertools.product(assignment[first], assignment[second])`. -/
def prodPairs (first second : List Blk) : List (Blk × Blk) :=
  first.flatMap (fun x => second.map (fun y => (x, y)))

/-- Embeds one run of the `equality` strategy: the candidate pairs of all
assignments in order, one shared `equal_map`. -/
def equalityRun (assignments : List (List Blk × List Blk)) : List (Blk × Blk) :=
  runPairs [] (assignments.flatMap (fun a => prodPairs a.1 a.2))

/-- The three vectors of the C7 counterexample: single-cell columns of one
table holding 0, 9·10⁻¹¹ and 18·10⁻¹¹.  Adjacent values are within the
10⁻¹⁰ tolerance of `equal`, the outer two are not. -/
def eqVecA : Blk := ⟨"t", Orient.vertical, ⟨0, 0, 1, 1⟩, [0]⟩

def eqVecB : Blk := ⟨"t", Orient.vertical, ⟨1, 0, 1, 1⟩, [9 / 100000000000]⟩

def eqVecC : Blk := ⟨"t", Orient.vertical, ⟨2, 0, 1, 1⟩, [18 / 100000000000]⟩

/-! ## Rank (tacle/engine/internal.py, `rank_data` and `rank.is_rank`)

`rank_data(a)` sorts descending, builds a dictionary mapping each value to its
rank — `table[initial[0]] = 1`, and at every boundary between runs of equal
values `table[initial[i]] = table[initial[i-1]] + counter` where `counter` is
the length of the previous run — and maps the input through the dictionary.
This is descending *competition* ranking: equal values share a rank and the
next distinct value's rank jumps by the multiplicity (`[9.0, 7.5, 7.5, 3.1]`
↦ `[1, 2, 2, 4]`), not dense ranking (`[1, 2, 2, 3]`).

`sorted(a, reverse=True)` is embedded as insertion sort with `· ≥ ·`; for
plain rational values any descending sort produces the same list, so
stability is immaterial.  `rank_data` of an empty list raises `IndexError`
at `initial[0]` (`none`). -/

def lookupT : List (ℚ × ℤ) → ℚ → Option ℤ
  | [], _ => none
  | (k, v) :: rest, q => if k = q then some v else lookupT rest q

/-- Dictionary assignment `table[k] = v` (update or append). -/
def insertT : List (ℚ × ℤ) → ℚ → ℤ → List (ℚ × ℤ)
  | [], k, v => [(k, v)]
  | (k0, v0) :: rest, k, v =>
    if k0 = k then (k0, v) :: rest else (k0, v0) :: insertT rest k v

/-- The ranking loop of `rank_data` over `initial[1:]`, carrying the previous
element, the current run length and the table.  `table[initial[i-1]]` — the
previous element is always a key, as `buildLoop_lookup` shows, so the
`getD 0` default models the never-raised `KeyError`. -/
def buildLoop : List ℚ → ℚ → ℤ → List (ℚ × ℤ) → List (ℚ × ℤ)
  | [], _, _, table => table
  | x :: xs, prev, counter, table =>
    if x = prev then buildLoop xs x (counter + 1) table
    else buildLoop xs x 1 (insertT table x ((lookupT table prev).getD 0 + counter))

/-- The comprehension `[table[e] for e in a]`; `none` marks a raised
`KeyError`. -/
def mapLookup (table : List (ℚ × ℤ)) : List ℚ → Option (List ℤ)
  | [] => some []
  | e :: es =>
    match lookupT table e, mapLookup table es with
    | some v, some vs => some (v :: vs)
    | _, _ => none

/-- Embeds `rank_data(a)`; `none` marks the `IndexError` raised on an empty
input. -/
def rank_data (a : List ℚ) : Option (List ℤ) :=
  match List.insertionSort (fun x y : ℚ => x ≥ y) a with
  | [] => none
  | h :: t => mapLookup (buildLoop t h 1 [(h, 1)]) a

/-- The rank comparison loop `for i in range(0, len(ranked)): if ranked[i] !=
y[i]`; `none` marks the `IndexError` raised when `y` is shorter. -/
def checkRanked : List ℤ → List ℤ → Option Bool
  | [], _ => some true
  | r :: rs, ys =>
    match ys with
    | [] => none
    | yh :: yt => if r ≠ yh then some false else checkRanked rs yt

/-- Embeds the `is_rank(y_v, x_v)` predicate of the Rank validator:
fail-fast bounds check on the first `min(len(y), 5)` entries, exact
comparison with `rank_data(x)`, then the `found_equal` store query
(`storedEq`). -/
def is_rank (storedEq : Bool) (y : List ℤ) (x : List ℚ) : Option Bool :=
  if (List.range (min y.length 5)).any
      (fun i => y.getD i 0 < 1 ∨ (x.length : ℤ) < y.getD i 0) then some false
  else
    match rank_data x with
    | none => none
    | some ranked =>
      match checkRanked ranked y with
      | none => none
      | some true => some (!storedEq)
      | some false => some false

/-- The number of entries of `l` strictly greater than `v`, as an integer. -/
def cntGt (v : ℚ) (l : List ℚ) : ℤ := (l.countP (fun w => v < w) : ℤ)

def cntEq (v : ℚ) (l : List ℚ) : ℤ := (l.countP (fun w => w = v) : ℤ)

/-- Descending competition (standard) ranking, stated from the amended
claim's words: each value's rank is one plus the number of strictly greater
entries. -/
def competitionRankDesc (x : List ℚ) : List ℤ :=
  x.map (fun v => 1 + cntGt v x)

/-- Descending dense ranking, stated from the claim's words: each value's
rank is one plus the number of *distinct* strictly greater values. -/
def denseRankDesc (x : List ℚ) : List ℤ :=
  x.map (fun v => 1 + ((x.filter (fun w => v < w)).dedup.length : ℤ))

instance : IsTotal ℚ (fun x y : ℚ => x ≥ y) :=
  ⟨fun a b => (le_total b a).imp id id⟩

instance : IsTrans ℚ (fun x y : ℚ => x ≥ y) :=
  ⟨fun _ _ _ hab hbc => le_trans hbc hab⟩

/-! ## Theorems -/

/-- Two ranges share a cell iff the intersection rectangle has positive width
and positive height. -/
theorem sharesCell_iff (r o : RangeI) :
    SharesCell r o ↔
      max r.x0 o.x0 < min r.x1 o.x1 ∧ max r.y0 o.y0 < min r.y1 o.y1 := by
  constructor
  · rintro ⟨x, y, hr, ho⟩
    simp only [RangeI.contains_cell, Bool.and_eq_true, decide_eq_true_eq] at hr ho
    omega
  · rintro ⟨hx, hy⟩
    refine ⟨max r.x0 o.x0, max r.y0 o.y0, ?_, ?_⟩ <;>
      simp only [RangeI.contains_cell, Bool.and_eq_true, decide_eq_true_eq] <;> omega

theorem sharesCell_symm {r o : RangeI} (h : SharesCell r o) : SharesCell o r := by
  rcases h with ⟨x, y, hr, ho⟩
  exact ⟨x, y, ho, hr⟩

theorem sharesCellB_symm {b o : Blk} (h : SharesCellB b o) : SharesCellB o b :=
  ⟨h.1.symm, sharesCell_symm h.2⟩

theorem sharesCellB_of_overlaps_eq_false {b o : Blk}
    (h : Blk.overlaps_with b o = false) : ¬ SharesCellB b o := by
  rintro ⟨ht, hs⟩
  rw [sharesCell_iff] at hs
  simp only [RangeI.x0, RangeI.y0, RangeI.x1, RangeI.y1] at hs
  simp only [Blk.overlaps_with, Bool.and_eq_false_iff, beq_eq_false_iff_ne, ne_eq] at h
  rcases h with h | h
  · exact h ht
  · simp only [RangeI.overlaps_with, RangeI.cells, RangeI.intersect,
      RangeI.from_coordinates, RangeI.rows, RangeI.columns, RangeI.x0, RangeI.y0,
      RangeI.x1, RangeI.y1, decide_eq_false_iff_not, not_lt] at h
    nlinarith [hs.1, hs.2, h]

/-- C1 counterexample: the 1×1 ranges at (0,0) and (5,5) share no cell, yet
`overlaps_with` reports `true` — the intersection rectangle has width −4 and
height −4, and the cell count (−4)·(−4) is positive. -/
theorem c1_overlaps_counterexample :
    RangeI.overlaps_with ⟨0, 0, 1, 1⟩ ⟨5, 5, 1, 1⟩ = true ∧
      ¬ SharesCell ⟨0, 0, 1, 1⟩ ⟨5, 5, 1, 1⟩ := by
  constructor
  · rfl
  · rw [sharesCell_iff]
    decide

/-- C1 (amended): `Range.overlaps_with` returns `true` iff the two ranges
share at least one cell, or the ranges are disjoint along both axes (then the
intersection's width and height are both negative and their product is
positive); `Block.overlaps_with` returns `true` iff the tables are equal and
its relative ranges satisfy the same condition. -/
theorem c1_overlaps_with_spec :
    (∀ r o : RangeI,
      r.overlaps_with o = true ↔
        (SharesCell r o ∨
          ((r.intersect o).width < 0 ∧ (r.intersect o).height < 0))) ∧
    (∀ b c : Blk,
      b.overlaps_with c = true ↔
        (b.table = c.table ∧
          (SharesCell b.relative_range c.relative_range ∨
            ((b.relative_range.intersect c.relative_range).width < 0 ∧
             (b.relative_range.intersect c.relative_range).height < 0)))) := by
  have key : ∀ r o : RangeI,
      r.overlaps_with o = true ↔
        (SharesCell r o ∨
          ((r.intersect o).width < 0 ∧ (r.intersect o).height < 0)) := by
    intro r o
    rw [sharesCell_iff]
    simp only [RangeI.overlaps_with, RangeI.cells, RangeI.intersect,
      RangeI.from_coordinates, RangeI.rows, RangeI.columns, RangeI.x0, RangeI.y0,
      RangeI.x1, RangeI.y1, decide_eq_true_eq]
    constructor
    · intro h
      rcases mul_pos_iff.mp h with ⟨h1, h2⟩ | ⟨h1, h2⟩
      · exact Or.inl ⟨by omega, by omega⟩
      · exact Or.inr ⟨by omega, by omega⟩
    · rintro (⟨h1, h2⟩ | ⟨h1, h2⟩)
      · exact mul_pos (by omega) (by omega)
      · exact mul_pos_of_neg_of_neg (by omega) (by omega)
  refine ⟨key, fun b c => ?_⟩
  simp only [Blk.overlaps_with, Bool.and_eq_true, beq_iff_eq]
  rw [key]

/-- C10: `Range.sub_range` never raises: when the requested slice exceeds the
range's column extent it returns a `ValueError` object as its result value;
a horizontal row-slice that exceeds the range's height is not detected and a
`Range` is still returned; and the bounds check inside `Block.sub_block`
signals failure only through the returned value, exactly when the x-extent is
exceeded. -/
theorem c10_sub_range_spec :
    (∀ (r : RangeI) (vi vc : ℤ) (o : Orient),
      r.x0 + vi + vc > r.x1 →
        r.sub_range vi vc o = .valueError "Sub range exceeds range") ∧
    (∀ (r : RangeI) (vi vc : ℤ),
      r.x0 + vi + vc ≤ r.x1 → r.y0 + vi + vc > r.y1 →
        r.sub_range vi vc Orient.horizontal =
          .range ⟨r.x0, r.y0 + vi, r.width, vc⟩) ∧
    (∀ (b : Blk) (vi vc : ℤ),
      (∃ msg, b.sub_block_range vi vc = .valueError msg) ↔
        b.relative_range.x0 + vi + vc > b.relative_range.x1) := by
  refine ⟨fun r vi vc o h => ?_, fun r vi vc h1 _h2 => ?_, fun b vi vc => ?_⟩
  · simp [RangeI.sub_range, h]
  · simp only [RangeI.sub_range, if_neg (by omega : ¬ r.x0 + vi + vc > r.x1)]
    rfl
  · constructor
    · rintro ⟨msg, hmsg⟩
      by_contra h
      simp only [Blk.sub_block_range, RangeI.sub_range, if_neg h] at hmsg
      split at hmsg <;> exact SubRangeResult.noConfusion hmsg
    · intro h
      exact ⟨"Sub range exceeds range", by simp [Blk.sub_block_range, RangeI.sub_range, h]⟩

/-- C10 witness: concrete instances of all three parts.  For the 2×2 range at
the origin the slice (1,2) exceeds the column extent and a `ValueError` value
is returned; for the width-5 height-1 range a horizontal slice (1,2) exceeds
the height but a `Range` is still returned. -/
theorem c10_sub_range_spec_witness :
    RangeI.sub_range ⟨0, 0, 2, 2⟩ 1 2 Orient.vertical =
        .valueError "Sub range exceeds range" ∧
      RangeI.sub_range ⟨0, 0, 5, 1⟩ 1 2 Orient.horizontal =
        .range ⟨0, 1, 5, 2⟩ ∧
      (∃ msg, Blk.sub_block_range ⟨"t", Orient.vertical, ⟨0, 0, 2, 2⟩, []⟩ 1 2 =
        .valueError msg) :=
  ⟨c10_sub_range_spec.1 ⟨0, 0, 2, 2⟩ 1 2 Orient.vertical (by decide),
   c10_sub_range_spec.2.1 ⟨0, 0, 5, 1⟩ 1 2 (by decide) (by decide),
   (c10_sub_range_spec.2.2 ⟨"t", Orient.vertical, ⟨0, 0, 2, 2⟩, []⟩ 1 2).mpr (by decide)⟩

theorem anyPairOverlaps_eq_false {vs : List Blk} (h : anyPairOverlaps vs = false) :
    ∀ (i j : ℕ) (hi : i < vs.length) (hj : j < vs.length), i < j →
      Blk.overlaps_with (vs.get ⟨i, hi⟩) (vs.get ⟨j, hj⟩) = false := by
  induction vs with
  | nil => intro i j hi; simp at hi
  | cons x xs ih =>
    simp only [anyPairOverlaps, Bool.or_eq_false_iff, List.any_eq_false] at h
    intro i j hi hj hij
    match i, j, hi, hj, hij with
    | 0, j + 1, _, hj, _ =>
      simpa using h.1 _ (List.get_mem xs j (by simpa using hj))
    | i + 1, j + 1, hi, hj, hij =>
      exact ih h.2 i j (by simpa using hi) (by simpa using hj) (by omega)

/-- C2: every tuple yielded by `_generate_test_vectors` binds pairwise
non-overlapping vectors: distinct positions (distinct template varbls)
hold blocks that share no sheet cell. -/
theorem c2_generated_vectors_overlap_free
    (assignments : List (List (List Blk))) (test : List Blk → Bool)
    (vs : List Blk) (hvs : vs ∈ generateTestVectors assignments test)
    (i j : ℕ) (hi : i < vs.length) (hj : j < vs.length) (hij : i ≠ j) :
    ¬ SharesCellB (vs.get ⟨i, hi⟩) (vs.get ⟨j, hj⟩) := by
  simp only [generateTestVectors, List.mem_flatMap, List.mem_filter,
    Bool.and_eq_true, Bool.not_eq_true'] at hvs
  obtain ⟨a, -, -, hover, -⟩ := hvs
  rcases Nat.lt_or_ge i j with h | h
  · exact sharesCellB_of_overlaps_eq_false (anyPairOverlaps_eq_false hover i j hi hj h)
  · intro hs
    exact sharesCellB_of_overlaps_eq_false
      (anyPairOverlaps_eq_false hover j i hj hi (by omega)) (sharesCellB_symm hs)

/-- C2 witness: a concrete run with two single-vector blocks in the same table
yields the tuple `[b1, b2]`, and the two blocks share no cell. -/
theorem c2_generated_vectors_overlap_free_witness :
    ¬ SharesCellB ⟨"t", Orient.vertical, ⟨0, 0, 1, 1⟩, []⟩
        ⟨"t", Orient.vertical, ⟨1, 0, 1, 1⟩, []⟩ :=
  c2_generated_vectors_overlap_free
    [[[⟨"t", Orient.vertical, ⟨0, 0, 1, 1⟩, []⟩],
      [⟨"t", Orient.vertical, ⟨1, 0, 1, 1⟩, []⟩]]]
    (fun _ => true)
    [⟨"t", Orient.vertical, ⟨0, 0, 1, 1⟩, []⟩, ⟨"t", Orient.vertical, ⟨1, 0, 1, 1⟩, []⟩]
    (by decide) 0 1 (by decide) (by decide) (by decide)

/-- C3: contrary to the claim, `lowest_common_ancestor` raises `IndexError`
exactly on the distinct pairs where one type is an ancestor of the other
(the backwards walk runs past the front of the shorter path): in particular
on (currency, float) and (int, numeric), where the claim says it returns the
ancestor.  On distinct same-root pairs where neither is an ancestor of the
other it does return the deepest common node, e.g. numeric for (int, float). -/
theorem c3_lca_raises :
    (∀ t1 t2 : CellType,
      lowest_common_ancestor t1 t2 = Except.error "IndexError" ↔
        (t1 ≠ t2 ∧ (t1 ∈ pathUp t2 ∨ t2 ∈ pathUp t1))) ∧
    lowest_common_ancestor .currency .float = Except.error "IndexError" ∧
    lowest_common_ancestor .int .numeric = Except.error "IndexError" ∧
    lowest_common_ancestor .int .float = Except.ok (some .numeric) ∧
    lowest_common_ancestor .currency .percentage = Except.ok (some .float) ∧
    lowest_common_ancestor .string .int = Except.ok none := by
  refine ⟨by decide, by decide, by decide, by decide, by decide, by decide⟩

/-- C4: for every non-`None` filter argument, `learn_from_cells` returns the
empty list — it filters the filters list itself with no patterns instead of
filtering the learned constraints — although `filter_constraints` applied as
the claim intends would keep the matching learned constraint. -/
theorem c4_learn_from_cells_drops_everything :
    (∀ (learned : List ConstraintI) (fs : List Pattern),
      learn_from_cells learned (some fs) = []) ∧
    learn_from_cells [⟨"sum (col)", true, "Aggregate"⟩] (some [Pattern.str "*"]) = [] ∧
    filter_constraints ConstraintI.formula constraintMatches
        [⟨"sum (col)", true, "Aggregate"⟩] [Pattern.str "*"] =
      [⟨"sum (col)", true, "Aggregate"⟩] := by
  refine ⟨fun learned fs => ?_, by decide, by decide⟩
  simp only [learn_from_cells, filter_constraints, List.map_eq_nil_iff]
  induction fs with
  | nil => rfl
  | cons p ps ih => rw [List.filter_cons, if_neg (by simp [checkPattern]), ih]

theorem maxRangeLoop_exists (test : ℤ → ℤ → Bool) (size lst : ℤ) (hsz : 1 ≤ size) :
    ∀ n m : ℕ, ∀ s e lim : ℤ, (lst - s).toNat ≤ n → (e - s).toNat ≤ m → e ≤ lst →
      ∃ (f : ℕ) (calls : List (ℤ × ℤ)),
        maxRangeLoop test f s e lim lst size = some calls ∧
          ∀ c ∈ calls, s ≤ c.1 ∧ c.2 ≤ lst ∧ size ≤ c.2 - c.1 := by
  intro n
  induction n with
  | zero =>
    intro m s e lim h1 _ _
    refine ⟨1, [], ?_, by simp⟩
    have : lst - s < size := by omega
    simp [maxRangeLoop, this]
  | succ n ihn =>
    intro m
    induction m with
    | zero =>
      intro s e lim h1 h2 he
      by_cases hret : lst - s < size
      · exact ⟨1, [], by simp [maxRangeLoop, hret], by simp⟩
      · have hb2 : e - s < size ∨ e < lim := Or.inl (by omega)
        obtain ⟨f, calls, hrun, hcalls⟩ :=
          ihn ((lst - (s + 1)).toNat) (s + 1) lst (max (s + 1 + size) lim)
            (by omega) (le_refl _) (le_refl _)
        refine ⟨f + 1, calls, ?_, fun c hc => ?_⟩
        · simp only [maxRangeLoop, if_neg (by omega : ¬ lst - s < size), if_pos hb2]
          exact hrun
        · obtain ⟨hc1, hc2, hc3⟩ := hcalls c hc
          exact ⟨by omega, hc2, hc3⟩
    | succ m ihm =>
      intro s e lim h1 h2 he
      by_cases hret : lst - s < size
      · exact ⟨1, [], by simp [maxRangeLoop, hret], by simp⟩
      by_cases hb2 : e - s < size ∨ e < lim
      · obtain ⟨f, calls, hrun, hcalls⟩ :=
          ihn ((lst - (s + 1)).toNat) (s + 1) lst (max (s + 1 + size) lim)
            (by omega) (le_refl _) (le_refl _)
        refine ⟨f + 1, calls, ?_, fun c hc => ?_⟩
        · simp only [maxRangeLoop, if_neg (by omega : ¬ lst - s < size), if_pos hb2]
          exact hrun
        · obtain ⟨hc1, hc2, hc3⟩ := hcalls c hc
          exact ⟨by omega, hc2, hc3⟩
      · push_neg at hb2
        by_cases htest : test s e = true
        · obtain ⟨f, calls, hrun, hcalls⟩ :=
            ihn ((e - (s + 1)).toNat) (s + 1) e lim (by omega) (le_refl _) he
          refine ⟨f + 1, (s, e) :: calls, ?_, ?_⟩
          · simp only [maxRangeLoop, if_neg (by omega : ¬ lst - s < size),
              if_neg (by omega : ¬ (e - s < size ∨ e < lim)), if_pos htest]
            rw [hrun]
            rfl
          · intro c hc
            rcases List.mem_cons.mp hc with rfl | hc
            · exact ⟨le_refl _, he, by omega⟩
            · obtain ⟨hc1, hc2, hc3⟩ := hcalls c hc
              exact ⟨by omega, hc2, hc3⟩
        · obtain ⟨f, calls, hrun, hcalls⟩ :=
            ihm s (e - 1) lim (by omega) (by omega) (by omega)
          refine ⟨f + 1, (s, e) :: calls, ?_, ?_⟩
          · simp only [maxRangeLoop, if_neg (by omega : ¬ lst - s < size),
              if_neg (by omega : ¬ (e - s < size ∨ e < lim)), if_neg htest]
            rw [hrun]
            rfl
          · intro c hc
            rcases List.mem_cons.mp hc with rfl | hc
            · exact ⟨le_refl _, he, by omega⟩
            · exact hcalls c hc

/-- C9: for `start ≤ end` and `size ≥ 1`, `MaxRange.find(start, end, size)`
terminates (some finite fuel suffices), and every invocation of the stored
predicate is on an interval `[s, e)` with `start ≤ s`, `e ≤ end` and
`e − s ≥ size`. -/
theorem c9_maxrange_terminates_and_bounds
    (test : ℤ → ℤ → Bool) (s e size : ℤ) (_hse : s ≤ e) (hsz : 1 ≤ size) :
    ∃ (f : ℕ) (calls : List (ℤ × ℤ)),
      maxRangeFind test f s e size = some calls ∧
        ∀ c ∈ calls, s ≤ c.1 ∧ c.2 ≤ e ∧ size ≤ c.2 - c.1 :=
  maxRangeLoop_exists test size e hsz ((e - s).toNat) ((e - s).toNat) s e
    (s + size - 1) (le_refl _) (le_refl _) (le_refl _)

/-- C9 witness: a concrete run on `[0, 3)` with minimum size 1 and an
always-true predicate. -/
theorem c9_maxrange_terminates_and_bounds_witness :
    ∃ (f : ℕ) (calls : List (ℤ × ℤ)),
      maxRangeFind (fun _ _ => true) f 0 3 1 = some calls ∧
        ∀ c ∈ calls, 0 ≤ c.1 ∧ c.2 ≤ 3 ∧ 1 ≤ c.2 - c.1 :=
  c9_maxrange_terminates_and_bounds (fun _ _ => true) 0 3 1 (by decide) (by decide)

/-- C6 counterexample: one template variable `x` admitting only `int`; the
first seed binds `x` to a float group (its seeded domain is empty), the
second binds `x` to an int group.  `try_assignment` reports `resume = True`
for the first seed, and `_complete` goes on to return the second seed's
solution — the claim says the empty seeded domain abandons all remaining
seeds and nothing further is returned. -/
theorem c6_seeded_empty_domain_counterexample :
    try_assignment [⟨"x", [GType.int]⟩] [("x", ⟨0, GType.float⟩)]
        ([] : List CGroup) ([] : List (CAsg → Bool)) = (true, []) ∧
      source_complete [⟨"x", [GType.int]⟩]
          [[("x", ⟨0, GType.float⟩)], [("x", ⟨1, GType.int⟩)]]
          ([] : List CGroup) ([] : List (CAsg → Bool)) =
        [[("x", ⟨1, GType.int⟩)]] := by
  constructor
  · rfl
  · rfl

/-- C6 (amended): an empty domain for an unseeded (free) variable makes
`try_assignment` report `resume = False`, upon which `_complete` abandons all
remaining seeds (and even the already-accumulated solutions) and returns no
assignments; an empty domain for a seeded variable yields `(True, [])`, which
only skips that one seed.  Concretely, for a single-variable template the
empty-domain outcome of `try_assignment` is `(False, [])` when the variable
is unseeded and `(True, [])` when it is seeded. -/
theorem c6_empty_domain_spec :
    (∀ (varbls : List Vbl) (groups : List CGroup) (filters : List (CAsg → Bool))
        (acc : List CAsg) (a : CAsg) (rest : List CAsg),
      (try_assignment varbls a groups filters).1 = false →
        completeAux varbls groups filters acc (a :: rest) = []) ∧
    (∀ (varbls : List Vbl) (groups : List CGroup) (filters : List (CAsg → Bool))
        (acc : List CAsg) (a : CAsg) (rest : List CAsg),
      try_assignment varbls a groups filters = (true, []) →
        completeAux varbls groups filters acc (a :: rest) =
          completeAux varbls groups filters acc rest) ∧
    (∀ (v : Vbl) (groups : List CGroup) (filters : List (CAsg → Bool)) (a : CAsg),
      lookupA a v.name = none →
        groups.filter (fun g => v.types.contains g.dtype) = [] →
        try_assignment [v] a groups filters = (false, [])) ∧
    (∀ (v : Vbl) (groups : List CGroup) (filters : List (CAsg → Bool)) (a : CAsg)
        (g : CGroup),
      lookupA a v.name = some g →
        v.types.contains g.dtype = false →
        try_assignment [v] a groups filters = (true, [])) := by
  refine ⟨?_, ?_, ?_, ?_⟩
  · intro varbls groups filters acc a rest h
    simp [completeAux, h]
  · intro varbls groups filters acc a rest h
    simp [completeAux, h]
  · intro v groups filters a hun hdom
    simp only [try_assignment, tryAssignmentGo, hun, hdom]
    rfl
  · intro v groups filters a g hb htype
    simp only [try_assignment, tryAssignmentGo, hb, List.filter_cons, List.filter_nil,
      htype]
    rfl

/-- C6 witness: concrete instances of all four parts, with the same groups as
the counterexample. -/
theorem c6_empty_domain_spec_witness :
    completeAux [⟨"x", [GType.int]⟩] ([] : List CGroup) ([] : List (CAsg → Bool))
        [] [[("y", ⟨0, GType.float⟩)]] = [] ∧
      completeAux [⟨"x", [GType.int]⟩] ([] : List CGroup) ([] : List (CAsg → Bool))
        [] [[("x", ⟨0, GType.float⟩)]] = completeAux [⟨"x", [GType.int]⟩]
          ([] : List CGroup) ([] : List (CAsg → Bool)) [] [] ∧
      try_assignment [⟨"x", [GType.int]⟩] [("y", ⟨0, GType.float⟩)]
        ([] : List CGroup) ([] : List (CAsg → Bool)) = (false, []) ∧
      try_assignment [⟨"x", [GType.int]⟩] [("x", ⟨0, GType.float⟩)]
        ([] : List CGroup) ([] : List (CAsg → Bool)) = (true, []) :=
  ⟨c6_empty_domain_spec.1 _ _ _ _ _ _ (by decide),
   c6_empty_domain_spec.2.1 _ _ _ _ _ _ (by decide),
   c6_empty_domain_spec.2.2.1 ⟨"x", [GType.int]⟩ _ _ _ (by decide) (by decide),
   c6_empty_domain_spec.2.2.2 ⟨"x", [GType.int]⟩ _ _ _ ⟨0, GType.float⟩
     (by decide) (by decide)⟩

theorem ffLoop_lt (e : ℚ) :
    ∀ (xs : List ℚ) (i0 len : ℕ), 1 ≤ len → i0 + xs.length ≤ len →
      ffLoop e xs i0 len < len := by
  intro xs
  induction xs with
  | nil => intro i0 len h1 _; simp only [ffLoop]; omega
  | cons x xs ih =>
    intro i0 len h1 h2
    simp only [ffLoop]
    split
    · simp only [List.length_cons] at h2; omega
    · exact ih (i0 + 1) len h1 (by simp only [List.length_cons] at h2; omega)

/-- Helper for C8: once the percent-diff loop can reach index `i`, a zero at
`o2[i]` forces rejection (an earlier index may already have rejected). -/
theorem percentDiffGo_zero_rejects (storedEq : Bool) :
    ∀ (r o1 o2 : List ℚ) (i : ℕ), r.length ≤ o1.length → r.length ≤ o2.length →
      i < r.length → o2.get? i = some 0 →
      percentDiffGo storedEq r o1 o2 = some false := by
  intro r
  induction r with
  | nil => intro o1 o2 i _ _ hi _; simp at hi
  | cons ri rs ih =>
    intro o1 o2 i h1 h2 hi hz
    match o1, h1 with
    | o1i :: o1t, h1 =>
      match o2, h2, hz with
      | o2i :: o2t, h2, hz =>
        simp only [percentDiffGo]
        match i, hi, hz with
        | 0, _, hz =>
          have hz0 : o2i = 0 := by simpa using hz
          simp [hz0]
        | i + 1, hi, hz =>
          by_cases hz0 : o2i = 0
          · simp [hz0]
          · simp only [if_neg hz0]
            by_cases hrej : o2i = 0 ∨
                qeq ri (npRound ((o1i - o2i) / o2i) (precision_and_scale ri).2) = false
            · simp [hrej]
            · simp only [if_neg hrej]
              exact ih o1t o2t i (by simpa using h1) (by simpa using h2)
                (by simpa using hi) (by simpa using hz)

/-- Helper for C8: once the fuzzy-lookup loop can reach index `i`, a key below
every ordered-key entry forces rejection, for any state of the `exact` flag. -/
theorem fuzzyTestGo_reject (eqOkFk eqOvFv : Bool) (ok ov : List ℚ)
    (hok : ok ≠ []) (hlen1 : ok.length ≤ ov.length) :
    ∀ (fk fv : List ℚ) (i : ℕ) (x : ℚ) (exct : Bool),
      fk.length ≤ fv.length → fk.get? i = some x → (∀ y ∈ ok, x < y) →
      fuzzyTestGo eqOkFk eqOvFv ok ov fk fv exct = some false := by
  obtain ⟨c0, rest, rfl⟩ : ∃ c0 rest, ok = c0 :: rest := by
    cases ok with
    | nil => exact absurd rfl hok
    | cons a l => exact ⟨a, l, rfl⟩
  intro fk
  induction fk with
  | nil => intro fv i x exct _ hget _; simp at hget
  | cons fki fkt ih =>
    intro fv i x exct hlen2 hget hlt
    match fv, hlen2 with
    | fvi :: fvt, hlen2 =>
      simp only [fuzzyTestGo, find_fuzzy]
      by_cases h0 : fki < c0
      · simp [h0]
      · match i, hget with
        | 0, hget =>
          have : x = fki := by simpa using hget.symm
          exact absurd (this ▸ hlt c0 (List.mem_cons_self c0 rest)) h0
        | i + 1, hget =>
          simp only [if_neg h0]
          set idx := ffLoop fki rest 1 (c0 :: rest).length with hidxdef
          have hidx : idx < (c0 :: rest).length :=
            ffLoop_lt fki rest 1 _ (by simp) (by simp only [List.length_cons]; omega)
          have hidx2 : idx < ov.length := lt_of_lt_of_le hidx hlen1
          obtain ⟨ovi, hovi⟩ : ∃ ovi, ov.get? idx = some ovi :=
            ⟨_, List.get?_eq_get hidx2⟩
          rw [hovi]
          by_cases hq : qeq ovi fvi = false
          · simp [hq]
          · have hq2 : qeq ovi fvi = true := by
              cases h : qeq ovi fvi
              · exact absurd h hq
              · rfl
            simp only [hq2]
            refine Eq.trans (by rw [if_neg]; simp) (ih fvt i x _
              (by simpa using hlen2) (by simpa using hget) hlt)

/-- C8: the `PercentualDiff` and `FuzzyLookup` predicates reject rather than
raise on the claim's edge cases: a zero divisor `O2[i]` makes `is_diff`
return `False` (the division is never executed for that index), and a
foreign key `FK[i]` smaller than every entry of the ordered key vector makes
`test_equal` return `False` (`find_fuzzy` returns `None`, which is treated
as a rejection, not an index error). -/
theorem c8_reject_not_raise :
    (∀ (storedEq : Bool) (r o1 o2 : List ℚ) (i : ℕ),
      r.length ≤ o1.length → r.length ≤ o2.length → i < r.length →
      o2.get? i = some 0 →
      is_percent_diff storedEq r o1 o2 = some false) ∧
    (∀ (eqOkFk eqOvFv eqOkOv : Bool) (ok ov fk fv : List ℚ) (i : ℕ) (x : ℚ),
      ok ≠ [] → ok.length ≤ ov.length → fk.length ≤ fv.length →
      fk.get? i = some x → (∀ y ∈ ok, x < y) →
      fuzzy_test_equal eqOkFk eqOvFv eqOkOv ok ov fk fv = some false) := by
  constructor
  · intro storedEq r o1 o2 i h1 h2 hi hz
    exact percentDiffGo_zero_rejects storedEq r o1 o2 i h1 h2 hi hz
  · intro eqOkFk eqOvFv eqOkOv ok ov fk fv i x hok hlen1 hlen2 hget hlt
    simp only [fuzzy_test_equal]
    by_cases hshort : (eqOkFk && eqOvFv && eqOkOv) = true
    · simp [hshort]
    · rw [if_neg (by simpa using hshort)]
      exact fuzzyTestGo_reject eqOkFk eqOvFv ok ov hok hlen1 fk fv i x true hlen2 hget hlt

/-- C8 witness: concrete rejected candidates: a zero divisor at index 0 for
`PercentualDiff`, and a foreign key below every ordered key for
`FuzzyLookup`. -/
theorem c8_reject_not_raise_witness :
    is_percent_diff false [5] [3] [0] = some false ∧
      fuzzy_test_equal false false false [10, 20] [1, 2] [0] [5] = some false :=
  ⟨c8_reject_not_raise.1 false [5] [3] [0] 0 (by decide) (by decide) (by decide) (by decide),
   c8_reject_not_raise.2 false false false [10, 20] [1, 2] [0] [5] 0 0
     (by decide) (by decide) (by decide) (by decide)
     (by intro y hy; rcases List.mem_cons.mp hy with rfl | hy
         · norm_num
         · rcases List.mem_cons.mp hy with rfl | hy
           · norm_num
           · simp at hy)⟩

theorem equalTest_fst (m : EqMap) (a c : Blk)
    (ho : orderedB a c = true) (hd : dataEqB a.data c.data = true) :
    (equalTest m a c).1 = true := by
  unfold equalTest
  rw [ho, hd, if_neg (by simp)]
  cases hx : lookupEq m a with
  | none => cases hy : lookupEq m c <;> simp [hx, hy]
  | some av =>
    cases hy : lookupEq m c with
    | none => simp [hx, hy]
    | some cv => by_cases hb : beqBlk av cv = true <;> simp [hx, hy, hb]

theorem runPairs_mem (a c : Blk) (hov : Blk.overlaps_with a c = false)
    (ho : orderedB a c = true) (hd : dataEqB a.data c.data = true) :
    ∀ (pairs : List (Blk × Blk)) (m : EqMap),
      (a, c) ∈ pairs → (a, c) ∈ runPairs m pairs := by
  intro pairs
  induction pairs with
  | nil => intro m h; simp at h
  | cons p rest ih =>
    obtain ⟨x, y⟩ := p
    intro m hmem
    rcases List.mem_cons.mp hmem with heq | hmem
    · injection heq with h1 h2
      subst h1
      subst h2
      simp only [runPairs, hov, Bool.false_eq_true, if_false]
      rw [if_pos (equalTest_fst m a c ho hd)]
      exact List.mem_cons_self _ _
    · simp only [runPairs]
      split
      · exact ih m hmem
      · split
        · exact List.mem_cons_of_mem _ (ih _ hmem)
        · exact ih _ hmem

/-- C7 (amended): within one run of the Equal validator, every candidate pair
that is enumerated, is non-overlapping, is in canonical order, and whose data
agree elementwise within the 10⁻¹⁰ tolerance is reported — in particular,
when the reported equalities hold with exact data equality, the reported set
is transitively closed over the candidate pairs; with merely tolerant
equality the pair `(a, c)` need not be reported (see the counterexample). -/
theorem c7_equal_tolerant_pairs_reported
    (assignments : List (List Blk × List Blk)) (a c : Blk)
    (hmem : (a, c) ∈ assignments.flatMap (fun s => prodPairs s.1 s.2))
    (hov : Blk.overlaps_with a c = false) (ho : orderedB a c = true)
    (hd : dataEqB a.data c.data = true) :
    (a, c) ∈ equalityRun assignments :=
  runPairs_mem a c hov ho hd _ [] hmem

theorem qeq_ab : qeq 0 (9 / 100000000000) = true := by
  simp only [qeq, decide_eq_true_eq]
  norm_num [abs_lt]

theorem qeq_bc : qeq (9 / 100000000000) (18 / 100000000000) = true := by
  simp only [qeq, decide_eq_true_eq]
  norm_num [abs_lt]

theorem qeq_ac : qeq 0 (18 / 100000000000) = false := by
  simp only [qeq, decide_eq_false_iff_not]
  norm_num [abs_lt]

theorem dataEq_ab : dataEqB eqVecA.data eqVecB.data = true := by
  simp [dataEqB, eqVecA, eqVecB, qeq_ab]

theorem dataEq_bc : dataEqB eqVecB.data eqVecC.data = true := by
  simp [dataEqB, eqVecB, eqVecC, qeq_bc]

theorem dataEq_ac : dataEqB eqVecA.data eqVecC.data = false := by
  simp [dataEqB, eqVecA, eqVecC, qeq_ac]

theorem eqRun_concrete :
    equalityRun [([eqVecA, eqVecB, eqVecC], [eqVecA, eqVecB, eqVecC])] =
      [(eqVecA, eqVecB), (eqVecB, eqVecC)] := by
  have hAB : equalTest [] eqVecA eqVecB = (true, [(eqVecB, eqVecA)]) := by
    simp [equalTest, orderedB, Blk.lt, Orient.ltO, Blk.vector_index, Blk.vector_count,
      Blk.vector_length, RangeI.vector_index, RangeI.vector_count, RangeI.vector_length,
      RangeI.x0, RangeI.y0, RangeI.rows, RangeI.columns, eqVecA, eqVecB, lookupEq,
      updateEq, dataEq_ab, dataEqB, qeq_ab]
  have hAC : equalTest [(eqVecB, eqVecA)] eqVecA eqVecC = (false, [(eqVecB, eqVecA)]) := by
    simp [equalTest, orderedB, Blk.lt, Orient.ltO, Blk.vector_index, Blk.vector_count,
      Blk.vector_length, RangeI.vector_index, RangeI.vector_count, RangeI.vector_length,
      RangeI.x0, RangeI.y0, RangeI.rows, RangeI.columns, eqVecA, eqVecB, eqVecC,
      lookupEq, beqBlk, dataEqB, qeq_ac]
  have hBA : equalTest [(eqVecB, eqVecA)] eqVecB eqVecA = (false, [(eqVecB, eqVecA)]) := by
    simp [equalTest, orderedB, Blk.lt, Orient.ltO, Blk.vector_index, Blk.vector_count,
      Blk.vector_length, RangeI.vector_index, RangeI.vector_count, RangeI.vector_length,
      RangeI.x0, RangeI.y0, RangeI.rows, RangeI.columns, eqVecA, eqVecB]
  have hBC : equalTest [(eqVecB, eqVecA)] eqVecB eqVecC =
      (true, [(eqVecB, eqVecA), (eqVecC, eqVecB)]) := by
    simp [equalTest, orderedB, Blk.lt, Orient.ltO, Blk.vector_index, Blk.vector_count,
      Blk.vector_length, RangeI.vector_index, RangeI.vector_count, RangeI.vector_length,
      RangeI.x0, RangeI.y0, RangeI.rows, RangeI.columns, eqVecA, eqVecB, eqVecC,
      lookupEq, beqBlk, updateEq, dataEqB, qeq_bc]
  have hCA : equalTest [(eqVecB, eqVecA), (eqVecC, eqVecB)] eqVecC eqVecA =
      (false, [(eqVecB, eqVecA), (eqVecC, eqVecB)]) := by
    simp [equalTest, orderedB, Blk.lt, Orient.ltO, Blk.vector_index, Blk.vector_count,
      Blk.vector_length, RangeI.vector_index, RangeI.vector_count, RangeI.vector_length,
      RangeI.x0, RangeI.y0, RangeI.rows, RangeI.columns, eqVecA, eqVecC]
  have hCB : equalTest [(eqVecB, eqVecA), (eqVecC, eqVecB)] eqVecC eqVecB =
      (false, [(eqVecB, eqVecA), (eqVecC, eqVecB)]) := by
    simp [equalTest, orderedB, Blk.lt, Orient.ltO, Blk.vector_index, Blk.vector_count,
      Blk.vector_length, RangeI.vector_index, RangeI.vector_count, RangeI.vector_length,
      RangeI.x0, RangeI.y0, RangeI.rows, RangeI.columns, eqVecB, eqVecC]
  have hovAA : Blk.overlaps_with eqVecA eqVecA = true := rfl
  have hovBB : Blk.overlaps_with eqVecB eqVecB = true := rfl
  have hovCC : Blk.overlaps_with eqVecC eqVecC = true := rfl
  have hovAB : Blk.overlaps_with eqVecA eqVecB = false := rfl
  have hovAC : Blk.overlaps_with eqVecA eqVecC = false := rfl
  have hovBA : Blk.overlaps_with eqVecB eqVecA = false := rfl
  have hovBC : Blk.overlaps_with eqVecB eqVecC = false := rfl
  have hovCA : Blk.overlaps_with eqVecC eqVecA = false := rfl
  have hovCB : Blk.overlaps_with eqVecC eqVecB = false := rfl
  unfold equalityRun
  simp only [prodPairs, List.flatMap_cons, List.flatMap_nil, List.map_cons, List.map_nil,
    List.append_nil, List.cons_append, List.nil_append]
  rw [runPairs, if_pos hovAA]
  rw [runPairs, if_neg (by rw [hovAB]; simp), hAB]
  rw [if_pos rfl]
  rw [runPairs, if_neg (by rw [hovAC]; simp), hAC]
  rw [if_neg (by simp)]
  rw [runPairs, if_neg (by rw [hovBA]; simp), hBA]
  rw [if_neg (by simp)]
  rw [runPairs, if_pos hovBB]
  rw [runPairs, if_neg (by rw [hovBC]; simp), hBC]
  rw [if_pos rfl]
  rw [runPairs, if_neg (by rw [hovCA]; simp), hCA]
  rw [if_neg (by simp)]
  rw [runPairs, if_neg (by rw [hovCB]; simp), hCB]
  rw [if_neg (by simp)]
  rw [runPairs, if_pos hovCC]
  rw [runPairs]

/-- C7 counterexample: the run over the candidate pairs of `[A, B, C]` (as
both Equal variables) reports `Equal(A,B)` and `Equal(B,C)` but not
`Equal(A,C)`, although `(A, C)` is a candidate pair in canonical order: the
tolerance-based `equal` is not transitive and the canonical map cannot
shortcut, because `A` was never entered as a key. -/
theorem c7_equal_transitivity_counterexample :
    equalityRun [([eqVecA, eqVecB, eqVecC], [eqVecA, eqVecB, eqVecC])] =
        [(eqVecA, eqVecB), (eqVecB, eqVecC)] ∧
      (eqVecA, eqVecC) ∈ prodPairs [eqVecA, eqVecB, eqVecC] [eqVecA, eqVecB, eqVecC] ∧
      Blk.overlaps_with eqVecA eqVecC = false ∧
      orderedB eqVecA eqVecC = true ∧
      (eqVecA, eqVecC) ∉
        equalityRun [([eqVecA, eqVecB, eqVecC], [eqVecA, eqVecB, eqVecC])] := by
  refine ⟨eqRun_concrete, by simp [prodPairs], rfl, ?_, ?_⟩
  · simp [orderedB, Blk.lt, Orient.ltO, Blk.vector_index, RangeI.vector_index,
      RangeI.x0, eqVecA, eqVecC]
  · rw [eqRun_concrete]
    simp [eqVecA, eqVecB, eqVecC, Prod.ext_iff, Blk.mk.injEq, RangeI.mk.injEq]

/-- C7 witness: the reported pair `(A, B)` of the counterexample run is also
obtained through the amended theorem. -/
theorem c7_equal_tolerant_pairs_reported_witness :
    (eqVecA, eqVecB) ∈
      equalityRun [([eqVecA, eqVecB, eqVecC], [eqVecA, eqVecB, eqVecC])] :=
  c7_equal_tolerant_pairs_reported
    [([eqVecA, eqVecB, eqVecC], [eqVecA, eqVecB, eqVecC])] eqVecA eqVecB
    (by simp [prodPairs]) rfl
    (by simp [orderedB, Blk.lt, Orient.ltO, Blk.vector_index, RangeI.vector_index,
      RangeI.x0, eqVecA, eqVecB])
    dataEq_ab

/-- C5 counterexample: on `X = [9.0, 7.5, 7.5, 3.1]` the code computes the
competition ranks `[1, 2, 2, 4]` — it accepts `Y = [1, 2, 2, 4]` and rejects
the dense-rank vector `[1, 2, 2, 3]` that the claim's "next distinct value
receives the next consecutive rank" prescribes. -/
theorem c5_rank_counterexample :
    rank_data [9, mkRat 15 2, mkRat 15 2, mkRat 31 10] = some [1, 2, 2, 4] ∧
      denseRankDesc [9, mkRat 15 2, mkRat 15 2, mkRat 31 10] = [1, 2, 2, 3] ∧
      is_rank false [1, 2, 2, 3] [9, mkRat 15 2, mkRat 15 2, mkRat 31 10] =
        some false ∧
      is_rank false [1, 2, 2, 4] [9, mkRat 15 2, mkRat 15 2, mkRat 31 10] =
        some true := by
  refine ⟨by decide, by decide, by decide, by decide⟩

theorem lookupT_insertT (k : ℚ) (v : ℤ) :
    ∀ (t : List (ℚ × ℤ)) (q : ℚ),
      lookupT (insertT t k v) q = if k = q then some v else lookupT t q := by
  intro t
  induction t with
  | nil =>
    intro q
    simp only [insertT, lookupT]
  | cons p rest ih =>
    obtain ⟨k0, v0⟩ := p
    intro q
    simp only [insertT]
    by_cases h0 : k0 = k
    · subst h0
      simp only [if_pos rfl, lookupT]
      by_cases hq : k0 = q
      · subst hq
        simp
      · rw [if_neg hq, if_neg hq, if_neg (fun h => hq h)]
    · rw [if_neg h0]
      simp only [lookupT]
      by_cases hq : k0 = q
      · subst hq
        rw [if_pos rfl, if_pos rfl, if_neg (fun h => h0 h.symm)]
      · rw [if_neg hq, if_neg hq, ih q]

theorem cntGt_cons (p a : ℚ) (t : List ℚ) :
    cntGt p (a :: t) = cntGt p t + if p < a then 1 else 0 := by
  simp only [cntGt, List.countP_cons, decide_eq_true_eq]
  split <;> push_cast <;> omega

theorem cntEq_cons (p a : ℚ) (t : List ℚ) :
    cntEq p (a :: t) = cntEq p t + if a = p then 1 else 0 := by
  simp only [cntEq, List.countP_cons, decide_eq_true_eq]
  split <;> push_cast <;> omega

theorem cntGt_append (p : ℚ) (l1 l2 : List ℚ) :
    cntGt p (l1 ++ l2) = cntGt p l1 + cntGt p l2 := by
  simp [cntGt, List.countP_append]

theorem cntEq_append (p : ℚ) (l1 l2 : List ℚ) :
    cntEq p (l1 ++ l2) = cntEq p l1 + cntEq p l2 := by
  simp [cntEq, List.countP_append]

theorem cntGt_nonneg (p : ℚ) (l : List ℚ) : 0 ≤ cntGt p l := by
  simp [cntGt]

theorem cnt_split (p : ℚ) :
    ∀ l : List ℚ, (∀ v ∈ l, p ≤ v) → cntGt p l + cntEq p l = l.length := by
  intro l
  induction l with
  | nil => intro _; simp [cntGt, cntEq]
  | cons a t ih =>
    intro h
    have ha := h a (List.mem_cons_self a t)
    have ht := ih (fun v hv => h v (List.mem_cons_of_mem _ hv))
    rw [cntGt_cons, cntEq_cons]
    rcases lt_or_eq_of_le ha with hlt | heq
    · rw [if_pos hlt, if_neg (ne_of_gt hlt)]
      simp only [cntGt, cntEq, List.length_cons] at ht ⊢
      push_cast
      omega
    · rw [if_neg (fun h => absurd heq (ne_of_lt h)), if_pos heq.symm]
      simp only [cntGt, cntEq, List.length_cons] at ht ⊢
      push_cast
      omega

theorem cnt_all (p : ℚ) :
    ∀ l : List ℚ, (∀ v ∈ l, p < v) → cntGt p l = l.length := by
  intro l
  induction l with
  | nil => intro _; simp [cntGt]
  | cons a t ih =>
    intro h
    rw [cntGt_cons, if_pos (h a (List.mem_cons_self a t))]
    rw [ih (fun v hv => h v (List.mem_cons_of_mem _ hv))]
    simp only [List.length_cons]
    push_cast
    ring

theorem cntEq_zero (p : ℚ) :
    ∀ l : List ℚ, (∀ v ∈ l, v ≠ p) → cntEq p l = 0 := by
  intro l
  induction l with
  | nil => intro _; simp [cntEq]
  | cons a t ih =>
    intro h
    rw [cntEq_cons, if_neg (h a (List.mem_cons_self a t))]
    rw [ih (fun v hv => h v (List.mem_cons_of_mem _ hv))]
    omega

theorem cntGt_lt_length (v : ℚ) : ∀ l : List ℚ, v ∈ l → cntGt v l < l.length := by
  intro l
  induction l with
  | nil => intro h; exact absurd h (List.not_mem_nil v)
  | cons a t ih =>
    intro hv
    have hle : cntGt v t ≤ (t.length : ℤ) := by
      simp only [cntGt]
      exact_mod_cast List.countP_le_length _
    rw [cntGt_cons]
    rcases List.mem_cons.mp hv with rfl | hv
    · rw [if_neg (lt_irrefl v)]
      simp only [List.length_cons]
      push_cast
      omega
    · have hlt := ih hv
      simp only [List.length_cons]
      split <;> push_cast <;> omega

/-- The invariant of the `rank_data` loop: after consuming a sorted prefix
`d` of the descending list (with `prev` the minimum of `d`, present in `d`,
and `counter` its multiplicity), the table maps exactly the values of `d` to
one plus the number of strictly greater entries.  Processing the remainder
extends this to the whole list. -/
theorem buildLoop_lookup :
    ∀ (rest d : List ℚ) (prev : ℚ) (counter : ℤ) (table : List (ℚ × ℤ)),
      List.Pairwise (fun x y : ℚ => x ≥ y) (d ++ rest) →
      prev ∈ d →
      (∀ v ∈ d, prev ≤ v) →
      counter = cntEq prev d →
      (∀ v, lookupT table v = if v ∈ d then some (1 + cntGt v d) else none) →
      ∀ v, lookupT (buildLoop rest prev counter table) v =
        if v ∈ d ++ rest then some (1 + cntGt v (d ++ rest)) else none := by
  intro rest
  induction rest with
  | nil =>
    intro d prev counter table _ _ _ _ htab v
    simpa using htab v
  | cons x xs ih =>
    intro d prev counter table hpair hprev hmin hcnt htab v
    have hcross : ∀ a ∈ d, ∀ b ∈ x :: xs, b ≤ a := (List.pairwise_append.mp hpair).2.2
    have hxd : ∀ a ∈ d, x ≤ a := fun a ha => hcross a ha x (List.mem_cons_self _ _)
    have hpair2 : List.Pairwise (fun x y : ℚ => x ≥ y) ((d ++ [x]) ++ xs) := by
      rw [List.append_assoc]
      simpa using hpair
    have hmem2 : x ∈ d ++ [x] := by simp
    have hmin2 : ∀ v ∈ d ++ [x], x ≤ v := by
      intro v hv
      rcases List.mem_append.mp hv with hv | hv
      · exact hxd v hv
      · simp only [List.mem_singleton] at hv
        exact le_of_eq hv.symm
    simp only [buildLoop]
    by_cases hx : x = prev
    · rw [if_pos hx]
      have hcnt2 : counter + 1 = cntEq x (d ++ [x]) := by
        rw [cntEq_append, cntEq_cons, hx, hcnt]
        simp [cntEq]
      have htab2 : ∀ w, lookupT table w =
          if w ∈ d ++ [x] then some (1 + cntGt w (d ++ [x])) else none := by
        intro w
        rw [htab w]
        by_cases hw : w ∈ d
        · rw [if_pos hw, if_pos (List.mem_append.mpr (Or.inl hw))]
          rw [cntGt_append, cntGt_cons,
            if_neg (fun hlt => absurd (hxd w hw) (not_le_of_lt hlt))]
          simp [cntGt]
        · rw [if_neg hw, if_neg ?_]
          intro hw2
          rcases List.mem_append.mp hw2 with h2 | h2
          · exact hw h2
          · simp only [List.mem_singleton] at h2
            exact hw (h2 ▸ hx ▸ hprev)
      have := ih (d ++ [x]) x (counter + 1) table hpair2 hmem2 hmin2 hcnt2 htab2 v
      rw [List.append_assoc] at this
      simpa using this
    · rw [if_neg hx]
      have hxprev : x ≤ prev := hcross prev hprev x (List.mem_cons_self _ _)
      have hxlt : x < prev := lt_of_le_of_ne hxprev hx
      have hxltd : ∀ a ∈ d, x < a := fun a ha => lt_of_lt_of_le hxlt (hmin a ha)
      have hxnotd : x ∉ d := fun hin => absurd rfl (ne_of_lt (hxltd x hin))
      have hlp : lookupT table prev = some (1 + cntGt prev d) := by
        rw [htab prev, if_pos hprev]
      have hval : (lookupT table prev).getD 0 + counter = 1 + (d.length : ℤ) := by
        rw [hlp]
        simp only [Option.getD_some]
        rw [hcnt]
        have hs := cnt_split prev d hmin
        simp only [cntGt, cntEq] at hs ⊢
        omega
      have hcnt2 : (1 : ℤ) = cntEq x (d ++ [x]) := by
        rw [cntEq_append, cntEq_cons, cntEq_zero x d (fun w hw => ne_of_gt (hxltd w hw))]
        simp [cntEq]
      have htab2 : ∀ w, lookupT (insertT table x ((lookupT table prev).getD 0 + counter)) w =
          if w ∈ d ++ [x] then some (1 + cntGt w (d ++ [x])) else none := by
        intro w
        rw [lookupT_insertT]
        by_cases hw : x = w
        · subst hw
          rw [if_pos rfl, if_pos (by simp)]
          rw [hval, cntGt_append, cntGt_cons, if_neg (lt_irrefl x), cnt_all x d hxltd]
          simp [cntGt]
        · rw [if_neg hw, htab w]
          by_cases hwd : w ∈ d
          · rw [if_pos hwd, if_pos (List.mem_append.mpr (Or.inl hwd))]
            rw [cntGt_append, cntGt_cons,
              if_neg (fun hlt => absurd (hxltd w hwd) (not_lt_of_gt hlt))]
            simp [cntGt]
          · rw [if_neg hwd, if_neg ?_]
            intro hw2
            rcases List.mem_append.mp hw2 with h2 | h2
            · exact hwd h2
            · simp only [List.mem_singleton] at h2
              exact hw h2.symm
      have := ih (d ++ [x]) x 1 (insertT table x ((lookupT table prev).getD 0 + counter))
        hpair2 hmem2 hmin2 hcnt2 htab2 v
      rw [List.append_assoc] at this
      simpa using this

theorem mapLookup_eq (table : List (ℚ × ℤ)) (g : ℚ → ℤ) :
    ∀ l : List ℚ, (∀ e ∈ l, lookupT table e = some (g e)) →
      mapLookup table l = some (l.map g) := by
  intro l
  induction l with
  | nil => intro _; rfl
  | cons e es ih =>
    intro h
    simp only [mapLookup, h e (List.mem_cons_self _ _),
      ih (fun w hw => h w (List.mem_cons_of_mem _ hw)), List.map_cons]

/-- `rank_data` computes descending competition ranks: each value is mapped
to one plus the number of strictly greater entries. -/
theorem rank_data_eq (a : List ℚ) (ha : a ≠ []) :
    rank_data a = some (competitionRankDesc a) := by
  cases hs : List.insertionSort (fun x y : ℚ => x ≥ y) a with
  | nil =>
    have hp := List.perm_insertionSort (fun x y : ℚ => x ≥ y) a
    rw [hs] at hp
    exact absurd hp.symm.eq_nil ha
  | cons h t =>
    have hsorted : List.Pairwise (fun x y : ℚ => x ≥ y) (h :: t) := by
      have := List.sorted_insertionSort (fun x y : ℚ => x ≥ y) a
      rw [hs] at this
      exact this
    have hperm : (h :: t).Perm a := by
      have := List.perm_insertionSort (fun x y : ℚ => x ≥ y) a
      rw [hs] at this
      exact this
    have htab0 : ∀ v, lookupT [(h, 1)] v =
        if v ∈ [h] then some (1 + cntGt v [h]) else none := by
      intro v
      by_cases hv : h = v
      · subst hv
        simp [lookupT, cntGt]
      · simp only [lookupT, if_neg hv, List.mem_singleton]
        rw [if_neg (fun hvh => hv hvh.symm)]
    have hlook := buildLoop_lookup t [h] h 1 [(h, 1)] (by simpa using hsorted)
      (List.mem_singleton.mpr rfl)
      (by intro v hv; rw [List.mem_singleton] at hv; exact le_of_eq hv.symm)
      (by simp [cntEq]) htab0
    simp only [rank_data, hs]
    have hmap : ∀ e ∈ a, lookupT (buildLoop t h 1 [(h, 1)]) e =
        some (1 + cntGt e a) := by
      intro e he
      have hes : e ∈ [h] ++ t := by
        simpa using hperm.mem_iff.mpr he
      rw [hlook e, if_pos hes]
      have : cntGt e ([h] ++ t) = cntGt e a := by
        simp only [cntGt, List.singleton_append]
        rw [hperm.countP_eq]
      rw [this]
    rw [mapLookup_eq _ _ a hmap]
    rfl

theorem compRank_mem_bounds (x : List ℚ) (z : ℤ)
    (hz : z ∈ competitionRankDesc x) : 1 ≤ z ∧ z ≤ (x.length : ℤ) := by
  simp only [competitionRankDesc, List.mem_map] at hz
  obtain ⟨v, hv, rfl⟩ := hz
  constructor
  · have := cntGt_nonneg v x
    omega
  · have := cntGt_lt_length v x hv
    omega

theorem checkRanked_refl : ∀ R : List ℤ, checkRanked R R = some true := by
  intro R
  induction R with
  | nil => rfl
  | cons r rs ih => simp [checkRanked, ih]

theorem checkRanked_eq : ∀ R y : List ℤ, checkRanked R y = some true →
    y.length = R.length → R = y := by
  intro R
  induction R with
  | nil =>
    intro y _ hlen
    exact (List.length_eq_zero.mp hlen).symm
  | cons r rs ih =>
    intro y hck hlen
    cases y with
    | nil => simp at hlen
    | cons yh yt =>
      simp only [checkRanked] at hck
      by_cases hr : r = yh
      · subst hr
        rw [if_neg (by simp)] at hck
        rw [ih yt hck (by simpa using hlen)]
      · rw [if_pos hr] at hck
        exact absurd hck (by simp)

/-- C5 (amended): for nonempty numeric `X` and an integer `Y` of the same
length, the Rank validator accepts exactly when `Y` is the descending
*competition* rank of `X` (each value gets one plus the number of strictly
greater entries, so the rank after a tie jumps by the multiplicity — for
`X = [9.0, 7.5, 7.5, 3.1]` the unique accepted vector is `[1, 2, 2, 4]`) and
no `Equal(Y, X)` instance is stored. -/
theorem c5_rank_spec (x : List ℚ) (y : List ℤ) (storedEq : Bool)
    (hx : x ≠ []) (hlen : y.length = x.length) :
    is_rank storedEq y x = some true ↔
      (y = competitionRankDesc x ∧ storedEq = false) := by
  have hrd := rank_data_eq x hx
  have hRlen : (competitionRankDesc x).length = x.length := by
    simp [competitionRankDesc]
  simp only [is_rank, hrd]
  split
  · rename_i hcut
    constructor
    · intro h
      exact absurd h (by simp)
    · rintro ⟨rfl, -⟩
      exfalso
      rw [List.any_eq_true] at hcut
      obtain ⟨i, hi, hbad⟩ := hcut
      rw [List.mem_range] at hi
      have hiy : i < (competitionRankDesc x).length :=
        lt_of_lt_of_le hi (min_le_left _ _)
      have hget : (competitionRankDesc x).getD i 0 ∈ competitionRankDesc x := by
        rw [List.getD_eq_getElem _ _ hiy]
        exact List.getElem_mem _
      have hb := compRank_mem_bounds x _ hget
      simp only [decide_eq_true_eq] at hbad
      omega
  · rename_i hcut
    cases hc : checkRanked (competitionRankDesc x) y with
    | none =>
      simp only [hc]
      constructor
      · intro h
        exact absurd h (by simp)
      · rintro ⟨rfl, -⟩
        rw [checkRanked_refl] at hc
        exact Option.noConfusion hc
    | some b =>
      cases b with
      | true =>
        have hy : competitionRankDesc x = y :=
          checkRanked_eq _ _ hc (hlen.trans hRlen.symm)
        simp only [hc]
        constructor
        · intro h
          refine ⟨hy.symm, ?_⟩
          simpa using h
        · rintro ⟨-, hst⟩
          rw [hst]
          rfl
      | false =>
        simp only [hc]
        constructor
        · intro h
          exact absurd h (by simp)
        · rintro ⟨rfl, -⟩
          rw [checkRanked_refl] at hc
          simp at hc

/-- C5 witness: the amended theorem applied to the claim's example — the
competition-rank vector `[1, 2, 2, 4]` is accepted when no `Equal` is
stored. -/
theorem c5_rank_spec_witness :
    is_rank false [1, 2, 2, 4] [9, mkRat 15 2, mkRat 15 2, mkRat 31 10] =
      some true :=
  (c5_rank_spec [9, mkRat 15 2, mkRat 15 2, mkRat 31 10] [1, 2, 2, 4] false
    (by decide) (by decide)).mpr ⟨by decide, rfl⟩

end TacleV
